import Mathlib

/-!
Verification of the MyBB user extractor (src/parse.py) against its
natural-language specification.

The Python source is shallowly embedded below.  Strings are modelled as
Lean strings / lists of characters; Python exceptions that the source
catches are modelled by `Option` results, and the one exception class the
source does not catch (OverflowError escaping `int(float(...))` /
`time.localtime`) is modelled by an explicit `crash` outcome.

Modelling notes (each noted again at the relevant definition):
* Python `str.strip()` removes a slightly larger whitespace set than
  `Char.isWhitespace`; only ASCII space, tab, CR and LF are modelled.
* `time.localtime` uses the process's local timezone; it is modelled with
  a fixed UTC offset of zero.  No claim depends on the concrete
  rendering of a valid timestamp.
* IEEE-754 rounding inside `float(...)` is not modelled: the exact
  decimal value of the literal is used.  No claim depends on inputs
  where the two differ.
-/

namespace Mybb

/-- The single-quote character `'` used by the tokenizer's quote toggle. -/
def quoteChar : Char := Char.ofNat 39

/-- Model of Python `str.strip()` (used as `current.strip()` and
`line.strip()` in src/parse.py): drop whitespace from both ends.
Only ASCII whitespace is modelled. -/
def trimChars (l : List Char) : List Char :=
  ((l.dropWhile Char.isWhitespace).reverse.dropWhile Char.isWhitespace).reverse

/-! ## Tuple tokenizer (`parse_values_line`, src/parse.py lines 20-49) -/

/-- One step of the character scan in `parse_values_line`
(src/parse.py lines 31-38): toggle the quote flag on `'`, split on a
comma seen outside quotes, otherwise accumulate the character. -/
def tokStep (st : List (List Char) × List Char × Bool) (c : Char) :
    List (List Char) × List Char × Bool :=
  let fs := st.1
  let cur := st.2.1
  let inq := st.2.2
  let inq' := if c = quoteChar then !inq else inq
  if c = ',' && !inq' then (fs ++ [trimChars cur], [], inq')
  else (fs, cur ++ [c], inq')

/-- The field-splitting loop of `parse_values_line`
(src/parse.py lines 27-41), including the final
`if current: fields.append(current.strip())` flush, which only fires
when the accumulator is non-empty. -/
def scanFields (cs : List Char) : List (List Char) :=
  let r := cs.foldl tokStep ([], [], false)
  if r.2.1 = [] then r.1 else r.1 ++ [trimChars r.2.1]

/-- The outer-quote removal applied to each field
(src/parse.py lines 44-47): if a field starts and ends with a single
quote, strip exactly one character from each end. -/
def unwrapField (f : List Char) : List Char :=
  if f.head? = some quoteChar && f.getLast? = some quoteChar then
    (f.drop 1).dropLast
  else f

/-- Strips the optional `;` of the regex tail `;?\s*$`, working on the
reversed line with trailing whitespace already removed. -/
def findCaptureTail (r1 : List Char) : List Char :=
  if r1.head? = some ';' then r1.tail else r1

/-- The tail of the regex `VALUES\s*\((.*)\);?\s*$` after the greedy
capture: locate the unique `)` whose suffix is an optional `;` followed
by whitespace only, and return the text before it.  Implemented by
stripping from the right, which is equivalent because the qualifying
`)` is unique when it exists. -/
def findCapture (t : List Char) : Option (List Char) :=
  if (findCaptureTail (t.reverse.dropWhile Char.isWhitespace)).head? = some ')' then
    some (findCaptureTail (t.reverse.dropWhile Char.isWhitespace)).tail.reverse
  else none

/-- Attempt of the regex `VALUES\s*\((.*)\);?\s*$` (case-insensitive)
anchored at the start of `cs`: a case-insensitive `VALUES`, optional
whitespace, `(`, then the greedy capture up to the closing `)`. -/
def matchValuesAt (cs : List Char) : Option (List Char) :=
  if (cs.take 6).map Char.toLower = "values".data then
    let rest := (cs.drop 6).dropWhile Char.isWhitespace
    if rest.head? = some '(' then findCapture rest.tail else none
  else none

/-- Model of `re.search` for the pattern above: try every start
position from the left and return the first successful match's capture
(src/parse.py line 22). -/
def searchValues : List Char → Option (List Char)
  | [] => matchValuesAt []
  | c :: rest =>
    match matchValuesAt (c :: rest) with
    | some cap => some cap
    | none => searchValues rest

/-- `parse_values_line` (src/parse.py lines 20-49): extract the
`VALUES(...)` capture, split it on unquoted commas, strip each field,
and unwrap one layer of surrounding single quotes.  Returns `none`
exactly when the regex does not match.  The Python function is total
and raises no exception; the embedding is a total function into
`Option`. -/
def parse_values_line (line : String) : Option (List String) :=
  (searchValues line.data).map fun cap =>
    (scanFields cap).map fun f => String.mk (unwrapField f)

/-! ## Scan measures used to state tokenizer claims -/

/-- Final quote-flag state after scanning `t` from state `q`
(the `in_quote` toggle of src/parse.py line 33). -/
def scanQ (q : Bool) (t : List Char) : Bool :=
  t.foldl (fun b c => if c = quoteChar then !b else b) q

/-- Whether scanning `t` from quote state `q` meets a comma in unquoted
context (a comma that `parse_values_line` would treat as a separator). -/
def hasTopComma (q : Bool) : List Char → Bool
  | [] => false
  | c :: rest =>
    let q' := if c = quoteChar then !q else q
    (c = ',' && !q') || hasTopComma q' rest

/-- Number of commas met in unquoted context while scanning `t` from
quote state `q`. -/
def topCommaCount (q : Bool) : List Char → Nat
  | [] => 0
  | c :: rest =>
    let q' := if c = quoteChar then !q else q
    (if c = ',' && !q' then 1 else 0) + topCommaCount q' rest

/-- Whether scanning `t` from quote state `q` meets a comma inside a
quoted region. -/
def hasQuotedComma (q : Bool) : List Char → Bool
  | [] => false
  | c :: rest =>
    let q' := if c = quoteChar then !q else q
    (c = ',' && q') || hasQuotedComma q' rest

/-- A well-formed tuple field text: non-empty, with balanced quotes and
no comma in unquoted context (so the scanner keeps it in one field). -/
def wfTok (t : List Char) : Bool :=
  !t.isEmpty && !(scanQ false t) && !(hasTopComma false t)

/-- A line carrying the tuple content `cs` in a `VALUES (...)`; clause,
used to state tokenizer claims end to end. -/
def valuesWrap (cs : List Char) : String :=
  String.mk ("VALUES (".data ++ cs ++ ");".data)

/-! ## Record normalizer (`process_user`, src/parse.py lines 52-92) -/

/-- Outcome of `int(float(regdate))` as classified by the handler in
src/parse.py lines 66-72: `ok` on success, `valueError` for the caught
`ValueError`/`TypeError`, `overflowError` for the uncaught
`OverflowError` raised on an infinite value.  (A finite literal beyond
the double range, where Python already overflows at `float(...)`, is
modelled as `ok` with the exact value; it then falls outside
`localtimeInRange`, so the observable outcome is the same crash.) -/
inductive TsParse where
  | ok (ts : Int)
  | valueError
  | overflowError
deriving DecidableEq

/-- Decimal-digit run with Python's underscore rule (an underscore may
stand only between two digits); returns the digit values read and the
unconsumed remainder.  The caller guarantees the first character is a
digit. -/
def pyDigitsAux : List Char → List Nat → List Nat × List Char
  | [], acc => (acc, [])
  | [c], acc =>
    if c.isDigit then (acc ++ [c.toNat - 48], []) else (acc, [c])
  | c :: d :: rest, acc =>
    if c.isDigit then pyDigitsAux (d :: rest) (acc ++ [c.toNat - 48])
    else if c = '_' && d.isDigit then pyDigitsAux rest (acc ++ [d.toNat - 48])
    else (acc, c :: d :: rest)

/-- Value of a (most-significant-first) decimal digit list. -/
def digitsVal (ds : List Nat) : Nat :=
  ds.foldl (fun n d => n * 10 + d) 0

/-- Result of Python `float(s)` on a syntactically valid literal:
a finite exact decimal value `sgn * m * 10 ^ (e - k)`, an infinity, or
a NaN.  IEEE rounding is not modelled (see the header note). -/
inductive PyFloat where
  | finite (sgn : Int) (m : Nat) (k : Nat) (e : Int)
  | inf (neg : Bool)
  | nan
deriving DecidableEq

/-- Splits an optional leading `+`/`-` sign, Python-style. -/
def splitSign (t : List Char) : Int × List Char :=
  match t with
  | [] => (1, [])
  | c :: r => if c = '+' then (1, r) else if c = '-' then (-1, r) else (1, c :: r)

/-- The finite-literal grammar of Python `float`:
`(digits [. [digits]] | . digits) [(e|E) [sign] digits]`, with
underscores between digits, and nothing left over. -/
def parseFinite (sgn : Int) (cs : List Char) : Option PyFloat :=
  let ipr :=
    match cs with
    | c :: _ => if c.isDigit then pyDigitsAux cs [] else ([], cs)
    | [] => ([], [])
  let ip := ipr.1
  let fpr :=
    match ipr.2 with
    | '.' :: r =>
      match r with
      | c :: _ => if c.isDigit then pyDigitsAux r [] else ([], r)
      | [] => ([], ([] : List Char))
    | r => ([], r)
  let fp := fpr.1
  if ip ++ fp = [] then none
  else
    match fpr.2 with
    | [] => some (.finite sgn (digitsVal (ip ++ fp)) fp.length 0)
    | e :: r3 =>
      if e = 'e' || e = 'E' then
        let sr := splitSign r3
        match sr.2 with
        | c :: _ =>
          if c.isDigit then
            let er := pyDigitsAux sr.2 []
            if er.2 = [] then
              some (.finite sgn (digitsVal (ip ++ fp)) fp.length
                (sr.1 * (digitsVal er.1 : Int)))
            else none
          else none
        | [] => none
      else none

/-- Python `float(s)`: strip whitespace, read an optional sign, then an
`inf`/`infinity`/`nan` keyword (case-insensitive) or a finite literal. -/
def pyFloatCore (cs0 : List Char) : Option PyFloat :=
  let cs1 := trimChars cs0
  let sr := splitSign cs1
  let low := sr.2.map Char.toLower
  if low = "inf".data || low = "infinity".data then some (.inf (sr.1 < 0))
  else if low = "nan".data then some .nan
  else parseFinite sr.1 sr.2

/-- Truncation toward zero of `sgn * m * 10 ^ (e - k)` (Python `int()`
applied to a finite float). -/
def truncVal (sgn : Int) (m : Nat) (k : Nat) (e : Int) : Int :=
  if (k : Int) ≤ e then sgn * (m : Int) * (10 : Int) ^ (e - k).toNat
  else sgn * ((m / 10 ^ ((k : Int) - e).toNat : Nat) : Int)

/-- `int(float(regdate))` under the exception model of src/parse.py
lines 66-72: a malformed literal or a NaN gives the caught
`ValueError`; an infinite (or double-overflowing) value gives the
uncaught `OverflowError`. -/
def pyIntFloat (s : String) : TsParse :=
  match pyFloatCore s.data with
  | none => .valueError
  | some .nan => .valueError
  | some (.inf _) => .overflowError
  | some (.finite sgn m k e) => .ok (truncVal sgn m k e)

/-- Whether `time.localtime ts` succeeds.  Modelled as `ts` fitting a
64-bit `time_t`; the finer platform-specific `tm_year` limits are not
modelled (no claim reaches them). -/
def localtimeInRange (ts : Int) : Bool :=
  decide (-(2 ^ 63) ≤ ts ∧ ts < 2 ^ 63)

/-- Proleptic-Gregorian date of a day count since 1970-01-01
(the civil-from-days algorithm used by C libraries). -/
def civilFromDays (z0 : Int) : Int × Nat × Nat :=
  let z := z0 + 719468
  let era := z.fdiv 146097
  let doe := (z - era * 146097).toNat
  let yoe := (doe - doe / 1460 + doe / 36524 - doe / 146096) / 365
  let doy := doe - (365 * yoe + yoe / 4 - yoe / 100)
  let mp := (5 * doy + 2) / 153
  let d := doy - (153 * mp + 2) / 5 + 1
  let m := if mp < 10 then mp + 3 else mp - 9
  (era * 400 + yoe + (if m ≤ 2 then 1 else 0), m, d)

/-- Zero-pad a number to two digits (the `%m`/`%d`/`%H`/`%M`/`%S`
fields of `time.strftime`). -/
def pad2 (n : Nat) : String :=
  if n < 10 then "0" ++ toString n else toString n

/-- `time.strftime('%Y-%m-%d', time.localtime ts)`, with the local
timezone modelled as UTC (see the header note). -/
def fmtDate (ts : Int) : String :=
  let days := ts.fdiv 86400
  let c := civilFromDays days
  toString c.1 ++ "-" ++ pad2 c.2.1 ++ "-" ++ pad2 c.2.2

/-- `time.strftime('%H:%M:%S', time.localtime ts)`, with the local
timezone modelled as UTC. -/
def fmtTime (ts : Int) : String :=
  let sod := (ts - ts.fdiv 86400 * 86400).toNat
  pad2 (sod / 3600) ++ ":" ++ pad2 (sod % 3600 / 60) ++ ":" ++ pad2 (sod % 60)

/-- The date/time branch of `process_user` (src/parse.py lines 63-72):
`some (created_date, created_time)` when the block completes (either
successfully or through the caught `ValueError`), `none` when the
uncaught `OverflowError` escapes. -/
def mkCreated (regdate : String) : Option (String × String) :=
  match pyIntFloat regdate with
  | .valueError => some ("(invalid)", "(invalid)")
  | .overflowError => none
  | .ok ts =>
    if localtimeInRange ts then some (fmtDate ts, fmtTime ts) else none

/-- Hex value of a single character, as accepted by Python
`int(c, 16)`. -/
def hexDigitVal? (c : Char) : Option Nat :=
  if '0' ≤ c ∧ c ≤ '9' then some (c.toNat - 48)
  else if 'a' ≤ c ∧ c ≤ 'f' then some (c.toNat - 87)
  else if 'A' ≤ c ∧ c ≤ 'F' then some (c.toNat - 55)
  else none

/-- Hex-digit run with Python's underscore rule; mirror of
`pyDigitsAux`. -/
def hexDigitsAux : List Char → List Nat → List Nat × List Char
  | [], acc => (acc, [])
  | [c], acc =>
    match hexDigitVal? c with
    | some v => (acc ++ [v], [])
    | none => (acc, [c])
  | c :: d :: rest, acc =>
    match hexDigitVal? c with
    | some v => hexDigitsAux (d :: rest) (acc ++ [v])
    | none =>
      match hexDigitVal? d with
      | some vd =>
        if c = '_' then hexDigitsAux rest (acc ++ [vd])
        else (acc, c :: d :: rest)
      | none => (acc, c :: d :: rest)

/-- Value of a (most-significant-first) hex digit list. -/
def hexVal (ds : List Nat) : Nat :=
  ds.foldl (fun n d => n * 16 + d) 0

/-- Python `int(g, 16)` on one slice `hex_ip[i:i+2]` of at most two
characters: strip whitespace, read an optional sign, then a non-empty
hex-digit run consuming everything.  (The `0x`/`0X` prefix that
`int(_, 16)` would also accept cannot fit a slice of length two
together with a digit, so it is not modelled.) -/
def pyIntHex2 (g : List Char) : Option Int :=
  let t := trimChars g
  let sr := splitSign t
  match sr.2 with
  | c :: _ =>
    match hexDigitVal? c with
    | some _ =>
      let hr := hexDigitsAux sr.2 []
      if hr.2 = [] then some (sr.1 * (hexVal hr.1 : Int)) else none
    | none => none
  | [] => none

/-- The slices `hex_ip[i:i+2] for i in range(0, len(hex_ip), 2)` of
src/parse.py line 80. -/
def chunk2 : List Char → List (List Char)
  | [] => []
  | [c] => [[c]]
  | a :: b :: rest => [a, b] :: chunk2 rest

/-- Spec-side value of one hex group: consecutive digits read in base
16 (used to state the dotted-decimal claim). -/
def groupVal (g : List Char) : Nat :=
  g.foldl (fun n c => n * 16 + (hexDigitVal? c).getD 0) 0

/-- `lastip.lower().startswith('0x')` (src/parse.py line 76). -/
def starts0x (s : String) : Bool :=
  match s.data.map Char.toLower with
  | '0' :: 'x' :: _ => true
  | _ => false

/-- The IP branch of `process_user` (src/parse.py lines 74-83): fields
starting (case-insensitively) with `0x` have their remainder cut into
two-character slices, each converted by `int(_, 16)` and joined with
`.`; a slice the conversion rejects yields the
`(bad hex: <raw>)` marker; other fields pass through unchanged. -/
def convertIp (lastip : String) : String :=
  if starts0x lastip then
    match (chunk2 (lastip.data.drop 2)).mapM pyIntHex2 with
    | some vals => String.intercalate "." (vals.map toString)
    | none => "(bad hex: " ++ lastip ++ ")"
  else lastip

/-- The value object built by `process_user`
(src/parse.py lines 85-92). -/
structure UserRecord where
  username : String
  email : String
  created_date : String
  created_time : String
  last_ip : String
  password_hash : String
deriving DecidableEq

/-- Outcome of `process_user` (src/parse.py lines 52-92):
`insufficient` models the caught `IndexError` path returning
`(None, "Not enough fields")`, `ok` the `(record, None)` return, and
`crash` an uncaught exception escaping the function. -/
inductive PUResult where
  | ok (r : UserRecord)
  | insufficient
  | crash
deriving DecidableEq

/-- `process_user` (src/parse.py lines 52-92).  Indexing `fields[1]`,
`fields[5]`, `fields[15]`, `fields[64]`, `fields[2]` raises the caught
`IndexError` exactly when fewer than 65 fields are present. -/
def process_user (fields : List String) : PUResult :=
  if fields.length < 65 then .insufficient
  else
    match mkCreated (fields.getD 15 "") with
    | none => .crash
    | some dt =>
      .ok
        { username := fields.getD 1 ""
          email := fields.getD 5 ""
          created_date := dt.1
          created_time := dt.2
          last_ip := convertIp (fields.getD 64 "")
          password_hash := fields.getD 2 "" }

/-! ## Main loop counters (`main`, src/parse.py lines 131-167) -/

/-- One iteration of the loop in `main` (src/parse.py lines 132-167)
acting on the `(processed, valid_users)` counters: blank lines, lines
without `@`, lines the tokenizer rejects, lines with at most 64 fields
and lines `process_user` rejects leave the counters unchanged; a valid
user increments both; `none` models an uncaught exception aborting the
program. -/
def mainStep (st : Nat × Nat) (raw : String) : Option (Nat × Nat) :=
  if trimChars raw.data = [] || !((trimChars raw.data).contains '@') then some st
  else
    match parse_values_line (String.mk (trimChars raw.data)) with
    | none => some st
    | some fields =>
      if fields.length ≤ 64 then some st
      else
        match process_user fields with
        | .crash => none
        | .insufficient => some st
        | .ok _ => some (st.1 + 1, st.2 + 1)

/-- The loop of `main` over all input lines, threading the
`(processed, valid_users)` counters. -/
def mainLoop : Nat × Nat → List String → Option (Nat × Nat)
  | st, [] => some st
  | st, l :: rest =>
    match mainStep st l with
    | none => none
    | some st' => mainLoop st' rest

/-! ## Spec-side definitions used to state claims -/

/-- Comma-separated tuple text built from a list of field texts
(spec-side construction used to state the tokenizer claims). -/
def joinComma : List (List Char) → List Char
  | [] => []
  | [t] => t
  | t :: u :: ts => t ++ ',' :: joinComma (u :: ts)

/-- A character list consisting of whitespace only. -/
def wsOnly (l : List Char) : Prop := ∀ c ∈ l, c.isWhitespace = true

/-- The spec's description of what may follow the closing parenthesis:
optionally a `;`, then trailing whitespace to the end of the line. -/
def tailOKP (tl : List Char) : Prop :=
  wsOnly tl ∨ ∃ ws, tl = ';' :: ws ∧ wsOnly ws

/-- The spec's description of a line the tokenizer accepts: somewhere
in the line, a case-insensitive `VALUES` keyword, optional whitespace,
`(`, some content, and a closing `)` that ends the statement
(optionally followed by `;` and trailing whitespace). -/
def specValuesPattern (cs : List Char) : Prop :=
  ∃ pre v ws content tl,
    cs = pre ++ v ++ ws ++ '(' :: (content ++ ')' :: tl) ∧
    v.map Char.toLower = "values".data ∧ wsOnly ws ∧ tailOKP tl

/-! ## Concrete claim-witness inputs -/

/-- Witness tuple fields for the quoted-comma claim: a numeric field, a
quoted field with an internal comma, and a bare `NULL`. -/
def c1Toks : List (List Char) := ["1".data, "'a,b'".data, "NULL".data]

/-- Witness field sequence with the undecodable hex field `0xZZ` at
index 64. -/
def c2Fields : List String := List.replicate 64 "x" ++ ["0xZZ"]

/-- Field sequence with the odd-length hex field `0xABC` at index 64. -/
def c2CexFields : List String := List.replicate 64 "x" ++ ["0xABC"]

/-- Witness field sequence with `not_a_number` at index 15. -/
def c3Fields : List String := List.replicate 15 "x" ++ ["not_a_number"] ++ List.replicate 49 "x"

/-- Witness field sequence of 65 identical fields. -/
def c7Fields : List String := List.replicate 65 "u"

/-- A complete valid input line: 65 quoted fields each containing an
`@`. -/
def c10Line : String :=
  "INSERT INTO t VALUES (" ++ String.intercalate "," (List.replicate 65 "'u@v'") ++ ");"

/-! ## Tokenizer lemmas -/

theorem exists_concat_of_ne_nil {α : Type} (l : List α) (h : l ≠ []) :
    ∃ ts t, l = ts ++ [t] := by
  rcases List.eq_nil_or_concat l with h0 | ⟨ts, t, h0⟩
  · exact absurd h0 h
  · exact ⟨ts, t, by simpa [List.concat_eq_append] using h0⟩

theorem joinComma_cons_of_ne_nil (t : List Char) (rest : List (List Char))
    (h : rest ≠ []) : joinComma (t :: rest) = t ++ ',' :: joinComma rest := by
  cases rest with
  | nil => exact absurd rfl h
  | cons u ts => rfl

theorem scanQ_nil (q : Bool) : scanQ q [] = q := rfl

theorem scanQ_cons (q : Bool) (c : Char) (t : List Char) :
    scanQ q (c :: t) = scanQ (if c = quoteChar then !q else q) t := rfl

theorem tokStep_push (fs : List (List Char)) (cur : List Char) (q : Bool) (c : Char)
    (h : (decide (c = ',') && !(if c = quoteChar then !q else q)) = false) :
    tokStep (fs, cur, q) c = (fs, cur ++ [c], if c = quoteChar then !q else q) := by
  simp only [tokStep, h]
  rfl

theorem tokStep_comma (fs : List (List Char)) (cur : List Char) :
    tokStep (fs, cur, false) ',' = (fs ++ [trimChars cur], [], false) := rfl

/-- Scanning a field text with no unquoted comma only grows the
accumulator. -/
theorem foldl_tokStep_nosplit (t : List Char) :
    ∀ (q : Bool) (fs : List (List Char)) (cur : List Char),
      hasTopComma q t = false →
      t.foldl tokStep (fs, cur, q) = (fs, cur ++ t, scanQ q t) := by
  induction t with
  | nil => intro q fs cur _; simp [scanQ]
  | cons c rest ih =>
    intro q fs cur h
    simp only [hasTopComma, Bool.or_eq_false_iff] at h
    rw [List.foldl_cons, tokStep_push fs cur q c h.1, scanQ_cons]
    rw [ih _ _ _ h.2, List.append_assoc]
    rfl

/-- Scanning a comma-joined list of well-formed field texts emits one
trimmed field per separator and leaves the last field text in the
accumulator. -/
theorem foldl_tokStep_joinComma (ts : List (List Char)) (lastT : List Char) :
    ∀ fs : List (List Char),
      (∀ t ∈ ts ++ [lastT], wfTok t = true) →
      (joinComma (ts ++ [lastT])).foldl tokStep (fs, [], false) =
        (fs ++ ts.map trimChars, lastT, false) := by
  induction ts with
  | nil =>
    intro fs hwf
    have hw : wfTok lastT = true := hwf lastT (by simp)
    simp only [wfTok, Bool.and_eq_true, Bool.not_eq_true'] at hw
    rw [List.nil_append, show joinComma [lastT] = lastT from rfl,
      foldl_tokStep_nosplit lastT false fs [] hw.2, hw.1.2]
    simp
  | cons t ts ih =>
    intro fs hwf
    have hw : wfTok t = true := hwf t (by simp)
    simp only [wfTok, Bool.and_eq_true, Bool.not_eq_true'] at hw
    rw [List.cons_append, joinComma_cons_of_ne_nil t (ts ++ [lastT]) (by simp),
      List.foldl_append]
    rw [foldl_tokStep_nosplit t false fs [] hw.2, hw.1.2]
    rw [List.foldl_cons, List.nil_append, tokStep_comma]
    rw [ih (fs ++ [trimChars t]) (fun u hu => hwf u (List.mem_cons_of_mem t hu))]
    simp

/-- On a comma-joined list of well-formed field texts, the scanner of
`parse_values_line` returns exactly the trimmed field texts. -/
theorem scanFields_joinComma (toks : List (List Char)) (hne : toks ≠ [])
    (hwf : ∀ t ∈ toks, wfTok t = true) :
    scanFields (joinComma toks) = toks.map trimChars := by
  obtain ⟨ts, lastT, rfl⟩ := exists_concat_of_ne_nil toks hne
  have hlast : wfTok lastT = true := hwf lastT (by simp)
  have hlne : lastT ≠ [] := by
    simp only [wfTok, Bool.and_eq_true] at hlast
    simpa using hlast.1.1
  unfold scanFields
  rw [foldl_tokStep_joinComma ts lastT [] hwf]
  simp [hlne]

theorem topCommaCount_nil (q : Bool) : topCommaCount q [] = 0 := rfl

theorem topCommaCount_cons (q : Bool) (c : Char) (t : List Char) :
    topCommaCount q (c :: t) =
      (if (decide (c = ',') && !(if c = quoteChar then !q else q)) = true then 1 else 0) +
        topCommaCount (if c = quoteChar then !q else q) t := rfl

theorem topCommaCount_append (a : List Char) :
    ∀ (b : List Char) (q : Bool),
      topCommaCount q (a ++ b) = topCommaCount q a + topCommaCount (scanQ q a) b := by
  induction a with
  | nil => intro b q; simp [topCommaCount, scanQ]
  | cons c rest ih =>
    intro b q
    rw [List.cons_append, topCommaCount_cons, topCommaCount_cons, scanQ_cons, ih]
    omega

theorem topCommaCount_eq_zero (t : List Char) :
    ∀ q : Bool, hasTopComma q t = false → topCommaCount q t = 0 := by
  induction t with
  | nil => intro q _; rfl
  | cons c rest ih =>
    intro q h
    simp only [hasTopComma, Bool.or_eq_false_iff] at h
    rw [topCommaCount_cons, h.1, ih _ h.2]
    rfl

/-- Each separator of a comma-joined well-formed field list is an
unquoted-context comma, and nothing else is: the count is the number of
separators. -/
theorem topCommaCount_joinComma (ts : List (List Char)) (lastT : List Char) :
    (∀ t ∈ ts ++ [lastT], wfTok t = true) →
    topCommaCount false (joinComma (ts ++ [lastT])) = ts.length := by
  induction ts with
  | nil =>
    intro hwf
    have hw : wfTok lastT = true := hwf lastT (by simp)
    simp only [wfTok, Bool.and_eq_true, Bool.not_eq_true'] at hw
    simpa [joinComma] using topCommaCount_eq_zero lastT false hw.2
  | cons t ts ih =>
    intro hwf
    have hw : wfTok t = true := hwf t (by simp)
    simp only [wfTok, Bool.and_eq_true, Bool.not_eq_true'] at hw
    rw [List.cons_append, joinComma_cons_of_ne_nil t (ts ++ [lastT]) (by simp),
      topCommaCount_append, topCommaCount_eq_zero t false hw.2, hw.1.2]
    have : topCommaCount false (',' :: joinComma (ts ++ [lastT])) =
        1 + topCommaCount false (joinComma (ts ++ [lastT])) := rfl
    rw [this, ih (fun u hu => hwf u (List.mem_cons_of_mem t hu))]
    simp [List.length_cons]
    omega

/-- The greedy capture of the regex tail on a wrapped tuple text is the
tuple text itself. -/
theorem findCapture_wrap (cs : List Char) :
    findCapture (cs ++ ");".data) = some cs := by
  have h : (cs ++ ");".data).reverse = ';' :: ')' :: cs.reverse := by
    simp [show (");".data : List Char) = [')', ';'] from rfl]
  unfold findCapture
  rw [h]
  have h2 : List.dropWhile Char.isWhitespace (';' :: ')' :: cs.reverse) =
      ';' :: ')' :: cs.reverse := by
    rw [List.dropWhile_cons_of_neg]
    simp
  rw [h2]
  simp [findCaptureTail]

theorem matchValuesAt_wrap (cs : List Char) :
    matchValuesAt ("VALUES (".data ++ cs ++ ");".data) =
      findCapture (cs ++ ");".data) := rfl

theorem searchValues_wrap (cs : List Char) :
    searchValues ("VALUES (".data ++ cs ++ ");".data) = some cs := by
  have hcons : "VALUES (".data ++ cs ++ ");".data =
      'V' :: ("ALUES (".data ++ cs ++ ");".data) := rfl
  rw [hcons, searchValues]
  have hm : matchValuesAt ('V' :: ("ALUES (".data ++ cs ++ ");".data)) = some cs := by
    rw [← hcons, matchValuesAt_wrap, findCapture_wrap]
  rw [hm]

/-- End-to-end form of the tokenizer on a wrapped tuple text. -/
theorem parse_values_line_wrap (cs : List Char) :
    parse_values_line (valuesWrap cs) =
      some ((scanFields cs).map fun f => String.mk (unwrapField f)) := by
  unfold parse_values_line valuesWrap
  rw [show (String.mk ("VALUES (".data ++ cs ++ ");".data)).data =
    "VALUES (".data ++ cs ++ ");".data from rfl]
  rw [searchValues_wrap]
  rfl

/-- With a trailing unquoted comma the accumulator is empty at the end
of the scan and the final flush appends nothing. -/
theorem scanFields_joinComma_comma (toks : List (List Char)) (hne : toks ≠ [])
    (hwf : ∀ t ∈ toks, wfTok t = true) :
    scanFields (joinComma toks ++ [',']) = toks.map trimChars := by
  obtain ⟨ts, lastT, rfl⟩ := exists_concat_of_ne_nil toks hne
  unfold scanFields
  rw [List.foldl_append, foldl_tokStep_joinComma ts lastT [] hwf]
  simp only [List.nil_append]
  rw [show List.foldl tokStep (ts.map trimChars, lastT, false) [','] =
    tokStep (ts.map trimChars, lastT, false) ',' from rfl, tokStep_comma]
  simp

/-! ## Claim theorems: tokenizer -/

/-- C1: for a well-formed tuple line with commas inside quoted fields,
the tokenizer returns one field per well-formed field text — that is,
the number of unquoted-context commas plus one — and each quoted field
text (with its internal commas intact) becomes exactly one output
field. -/
theorem c1_quoted_comma_fields (toks : List (List Char)) (hne : toks ≠ [])
    (hwf : ∀ t ∈ toks, wfTok t = true)
    (hqc : ∃ t ∈ toks, hasQuotedComma false t = true) :
    parse_values_line (valuesWrap (joinComma toks)) =
      some (toks.map fun t => String.mk (unwrapField (trimChars t))) ∧
    (toks.map fun t => String.mk (unwrapField (trimChars t))).length =
      topCommaCount false (joinComma toks) + 1 := by
  constructor
  · rw [parse_values_line_wrap, scanFields_joinComma toks hne hwf, List.map_map]
    rfl
  · obtain ⟨ts, lastT, rfl⟩ := exists_concat_of_ne_nil toks hne
    rw [List.length_map, topCommaCount_joinComma ts lastT hwf]
    simp

/-- Witness for C1 on the tuple `1,'a,b',NULL`. -/
theorem c1_witness :
    (c1Toks ≠ [] ∧ (∀ t ∈ c1Toks, wfTok t = true) ∧
      ∃ t ∈ c1Toks, hasQuotedComma false t = true) ∧
    (parse_values_line (valuesWrap (joinComma c1Toks)) =
      some (c1Toks.map fun t => String.mk (unwrapField (trimChars t))) ∧
    (c1Toks.map fun t => String.mk (unwrapField (trimChars t))).length =
      topCommaCount false (joinComma c1Toks) + 1) :=
  ⟨⟨by decide, by decide, by decide⟩,
    c1_quoted_comma_fields c1Toks (by decide) (by decide) (by decide)⟩

/-- C4 (amended): the trailing field text, with no comma after it, is
still flushed as the final output field when it is non-empty; a
completely empty trailing text (a tuple ending in an unquoted comma)
produces no final element. -/
theorem c4_trailing_field (toks : List (List Char)) (hne : toks ≠ [])
    (hwf : ∀ t ∈ toks, wfTok t = true) :
    parse_values_line (valuesWrap (joinComma toks)) =
      some (toks.map fun t => String.mk (unwrapField (trimChars t))) ∧
    parse_values_line (valuesWrap (joinComma toks ++ [','])) =
      some (toks.map fun t => String.mk (unwrapField (trimChars t))) := by
  constructor
  · rw [parse_values_line_wrap, scanFields_joinComma toks hne hwf, List.map_map]
    rfl
  · rw [parse_values_line_wrap, scanFields_joinComma_comma toks hne hwf, List.map_map]
    rfl

/-- Counterexample for C4 as stated: on `VALUES (a,b,)` the trailing
text after the last unquoted comma is empty, and no empty final field
is produced. -/
theorem c4_counterexample :
    parse_values_line "VALUES (a,b,)" = some ["a", "b"] ∧
    parse_values_line "VALUES (a,b,)" ≠ some ["a", "b", ""] := by decide

/-- Witness for C4 (amended) on the tuple `a,b`. -/
theorem c4_witness :
    ((["a".data, "b".data] : List (List Char)) ≠ [] ∧
      ∀ t ∈ (["a".data, "b".data] : List (List Char)), wfTok t = true) ∧
    (parse_values_line (valuesWrap (joinComma ["a".data, "b".data])) =
      some ((["a".data, "b".data] : List (List Char)).map
        fun t => String.mk (unwrapField (trimChars t))) ∧
    parse_values_line (valuesWrap (joinComma ["a".data, "b".data] ++ [','])) =
      some ((["a".data, "b".data] : List (List Char)).map
        fun t => String.mk (unwrapField (trimChars t)))) :=
  ⟨⟨by decide, by decide⟩, c4_trailing_field ["a".data, "b".data] (by decide) (by decide)⟩

/-- C8: tokenizing a tuple whose single field is `'hello, world'`
yields exactly `hello, world`: one quote layer stripped, the internal
comma intact. -/
theorem c8_roundtrip :
    parse_values_line "INSERT INTO mybb_users VALUES ('hello, world');" =
      some ["hello, world"] := by decide

/-! ## Claim theorems: record normalizer -/

/-- C5: `process_user` reports insufficient fields exactly when the
field sequence has fewer than 65 elements. -/
theorem c5_insufficient_iff (fields : List String) :
    process_user fields = PUResult.insufficient ↔ fields.length < 65 := by
  unfold process_user
  by_cases h : fields.length < 65
  · simp [h]
  · rw [if_neg h]
    cases hmk : mkCreated (fields.getD 15 "") with
    | none => simp [h]
    | some dt => simp [h]

/-- Witness for C5: a 10-element sequence is rejected. -/
theorem c5_witness : process_user (List.replicate 10 "x") = PUResult.insufficient :=
  (c5_insufficient_iff (List.replicate 10 "x")).mpr (by decide)

/-- C3: when the registration field raises the caught `ValueError`,
both date and time become `(invalid)` and the record is still fully
produced. -/
theorem c3_invalid_timestamp (fields : List String) (hlen : 64 < fields.length)
    (hbad : pyIntFloat (fields.getD 15 "") = TsParse.valueError) :
    process_user fields = PUResult.ok
      { username := fields.getD 1 "", email := fields.getD 5 "",
        created_date := "(invalid)", created_time := "(invalid)",
        last_ip := convertIp (fields.getD 64 ""),
        password_hash := fields.getD 2 "" } := by
  have h65 : ¬ fields.length < 65 := by omega
  have hmk : mkCreated (fields.getD 15 "") = some ("(invalid)", "(invalid)") := by
    unfold mkCreated
    rw [hbad]
  unfold process_user
  rw [if_neg h65, hmk]

/-- Witness for C3 with `not_a_number` at index 15. -/
theorem c3_witness :
    (64 < c3Fields.length ∧ pyIntFloat (c3Fields.getD 15 "") = TsParse.valueError) ∧
    process_user c3Fields = PUResult.ok
      { username := c3Fields.getD 1 "", email := c3Fields.getD 5 "",
        created_date := "(invalid)", created_time := "(invalid)",
        last_ip := convertIp (c3Fields.getD 64 ""),
        password_hash := c3Fields.getD 2 "" } :=
  ⟨⟨by decide, by decide⟩, c3_invalid_timestamp c3Fields (by decide) (by decide)⟩

/-- C7: every record `process_user` returns takes its `username`,
`password_hash` and `email` from indices 1, 2 and 5, and its
date/time and IP outputs are functions of the fields at indices 15
and 64 alone. -/
theorem c7_positional_fields (fields : List String) (r : UserRecord)
    (h : process_user fields = PUResult.ok r) :
    r.username = fields.getD 1 "" ∧ r.password_hash = fields.getD 2 "" ∧
    r.email = fields.getD 5 "" ∧
    mkCreated (fields.getD 15 "") = some (r.created_date, r.created_time) ∧
    r.last_ip = convertIp (fields.getD 64 "") := by
  unfold process_user at h
  by_cases hl : fields.length < 65
  · rw [if_pos hl] at h
    cases h
  · rw [if_neg hl] at h
    cases hmk : mkCreated (fields.getD 15 "") with
    | none => rw [hmk] at h; cases h
    | some dt =>
      rw [hmk] at h
      have hr := PUResult.ok.inj h
      rw [← hr]
      exact ⟨rfl, rfl, rfl, rfl, rfl⟩

/-- Witness for C7 on 65 identical fields. -/
theorem c7_witness :
    (process_user c7Fields =
      PUResult.ok ⟨"u", "u", "(invalid)", "(invalid)", "u", "u"⟩) ∧
    ((⟨"u", "u", "(invalid)", "(invalid)", "u", "u"⟩ : UserRecord).username =
        c7Fields.getD 1 "" ∧
      (⟨"u", "u", "(invalid)", "(invalid)", "u", "u"⟩ : UserRecord).password_hash =
        c7Fields.getD 2 "" ∧
      (⟨"u", "u", "(invalid)", "(invalid)", "u", "u"⟩ : UserRecord).email =
        c7Fields.getD 5 "" ∧
      mkCreated (c7Fields.getD 15 "") =
        some ((⟨"u", "u", "(invalid)", "(invalid)", "u", "u"⟩ : UserRecord).created_date,
          (⟨"u", "u", "(invalid)", "(invalid)", "u", "u"⟩ : UserRecord).created_time) ∧
      (⟨"u", "u", "(invalid)", "(invalid)", "u", "u"⟩ : UserRecord).last_ip =
        convertIp (c7Fields.getD 64 "")) :=
  ⟨by decide, c7_positional_fields c7Fields
    ⟨"u", "u", "(invalid)", "(invalid)", "u", "u"⟩ (by decide)⟩

/-- C2 (amended): when the remainder after `0x` contains a slice the
base-16 integer conversion rejects — and the timestamp branch does not
abort the record — the record is produced with the bad-hex marker
embedding the raw field.  (An odd-length remainder alone is decoded,
not rejected: its trailing single hex digit forms its own group.) -/
theorem c2_badhex_marker (fields : List String) (hlen : 64 < fields.length)
    (h0x : starts0x (fields.getD 64 "") = true)
    (hbad : (chunk2 ((fields.getD 64 "").data.drop 2)).mapM pyIntHex2 = none)
    (hts : mkCreated (fields.getD 15 "") ≠ none) :
    ∃ r, process_user fields = PUResult.ok r ∧
      r.last_ip = "(bad hex: " ++ fields.getD 64 "" ++ ")" := by
  have h65 : ¬ fields.length < 65 := by omega
  cases hmk : mkCreated (fields.getD 15 "") with
  | none => exact absurd hmk hts
  | some dt =>
    refine ⟨⟨fields.getD 1 "", fields.getD 5 "", dt.1, dt.2,
      convertIp (fields.getD 64 ""), fields.getD 2 ""⟩, ?_, ?_⟩
    · unfold process_user
      rw [if_neg h65, hmk]
    · show convertIp (fields.getD 64 "") = _
      unfold convertIp
      rw [if_pos h0x, hbad]

/-- Counterexample for C2 as stated: the odd-length remainder `ABC`
does not fail hex decoding; `0xABC` is decoded to `171.12` and no
bad-hex marker is produced. -/
theorem c2_counterexample :
    process_user c2CexFields = PUResult.ok
      ⟨"x", "x", "(invalid)", "(invalid)", "171.12", "x"⟩ ∧
    ("171.12" : String) ≠ "(bad hex: 0xABC)" := by decide

/-- Witness for C2 (amended) with `0xZZ` at index 64. -/
theorem c2_witness :
    (64 < c2Fields.length ∧ starts0x (c2Fields.getD 64 "") = true ∧
      (chunk2 ((c2Fields.getD 64 "").data.drop 2)).mapM pyIntHex2 = none ∧
      mkCreated (c2Fields.getD 15 "") ≠ none) ∧
    ∃ r, process_user c2Fields = PUResult.ok r ∧
      r.last_ip = "(bad hex: " ++ c2Fields.getD 64 "" ++ ")" :=
  ⟨⟨by decide, by decide, by decide, by decide⟩,
    c2_badhex_marker c2Fields (by decide) (by decide) (by decide) (by decide)⟩

/-! ## Hex-conversion lemmas for C6 -/

theorem hexDigitVal?_ws {c : Char} (h : c.isWhitespace = true) :
    hexDigitVal? c = none := by
  simp only [Char.isWhitespace, Bool.or_eq_true, decide_eq_true_eq] at h
  rcases h with ((h | h) | h) | h <;> subst h <;> decide

theorem hexDigitVal?_isSome_not_ws {c : Char} (h : (hexDigitVal? c).isSome = true) :
    c.isWhitespace = false := by
  cases hw : c.isWhitespace
  · rfl
  · rw [hexDigitVal?_ws hw] at h
    simp at h

theorem hexDigitVal?_isSome_ne_plus {c : Char} (h : (hexDigitVal? c).isSome = true) :
    c ≠ '+' := by
  rintro rfl
  exact absurd h (by decide)

theorem hexDigitVal?_isSome_ne_minus {c : Char} (h : (hexDigitVal? c).isSome = true) :
    c ≠ '-' := by
  rintro rfl
  exact absurd h (by decide)

/-- `int(g, 16)` on a slice of two hex digits is the two-digit base-16
value. -/
theorem pyIntHex2_pair {a b : Char} (ha : (hexDigitVal? a).isSome = true)
    (hb : (hexDigitVal? b).isSome = true) :
    pyIntHex2 [a, b] = some ((groupVal [a, b] : Nat) : Int) := by
  obtain ⟨va, hva⟩ := Option.isSome_iff_exists.mp ha
  obtain ⟨vb, hvb⟩ := Option.isSome_iff_exists.mp hb
  have hwa := hexDigitVal?_isSome_not_ws ha
  have hwb := hexDigitVal?_isSome_not_ws hb
  have htrim : trimChars [a, b] = [a, b] := by
    simp [trimChars, List.dropWhile_cons, hwa, hwb]
  have hsign : splitSign [a, b] = (1, [a, b]) := by
    simp [splitSign, hexDigitVal?_isSome_ne_plus ha, hexDigitVal?_isSome_ne_minus ha]
  have haux : hexDigitsAux [a, b] [] = ([va, vb], []) := by
    unfold hexDigitsAux
    rw [hva]
    unfold hexDigitsAux
    rw [hvb]
    rfl
  show (match (splitSign (trimChars [a, b])).2 with
    | c :: _ =>
      match hexDigitVal? c with
      | some _ =>
        if (hexDigitsAux (splitSign (trimChars [a, b])).2 []).2 = [] then
          some ((splitSign (trimChars [a, b])).1 *
            ((hexVal (hexDigitsAux (splitSign (trimChars [a, b])).2 []).1 : Nat) : Int))
        else none
      | none => none
    | [] => none) = some ((groupVal [a, b] : Nat) : Int)
  rw [htrim, hsign]
  show (match hexDigitVal? a with
    | some _ =>
      if (hexDigitsAux [a, b] []).2 = [] then
        some ((1 : Int) * ((hexVal (hexDigitsAux [a, b] []).1 : Nat) : Int))
      else none
    | none => none) = some ((groupVal [a, b] : Nat) : Int)
  rw [hva, haux]
  simp [hexVal, groupVal, hva, hvb]

/-- On an even-length all-hex-digit remainder, every two-character
slice decodes and `mapM` returns the slice values. -/
theorem mapM_pyIntHex2_chunk2 :
    ∀ l : List Char, l.length % 2 = 0 →
      (∀ c ∈ l, (hexDigitVal? c).isSome = true) →
      (chunk2 l).mapM pyIntHex2 =
        some ((chunk2 l).map fun g => ((groupVal g : Nat) : Int))
  | [] => by intro _ _; rfl
  | [c] => by intro h _; simp at h
  | a :: b :: rest => by
    intro hlen hall
    have hrest : rest.length % 2 = 0 := by
      simp only [List.length_cons] at hlen
      omega
    have ih := mapM_pyIntHex2_chunk2 rest hrest
      (fun c hc => hall c (by simp [hc]))
    rw [show chunk2 (a :: b :: rest) = [a, b] :: chunk2 rest from rfl]
    rw [List.mapM_cons, pyIntHex2_pair (hall a (by simp)) (hall b (by simp)), ih]
    simp

/-- C6: a field starting case-insensitively with `0x` whose remainder
is an even-length run of hex digits becomes the base-16 values of its
consecutive two-digit groups joined with `.`; a field not starting
with `0x` passes through unchanged. -/
theorem c6_ip_conversion (s : String) :
    (starts0x s = true →
      (s.data.drop 2).length % 2 = 0 →
      (∀ c ∈ s.data.drop 2, (hexDigitVal? c).isSome = true) →
      convertIp s = String.intercalate "."
        ((chunk2 (s.data.drop 2)).map fun g => toString (groupVal g))) ∧
    (starts0x s = false → convertIp s = s) := by
  constructor
  · intro h0 hev hall
    unfold convertIp
    rw [if_pos h0, mapM_pyIntHex2_chunk2 _ hev hall]
    show String.intercalate "."
        ((List.map (fun g => ((groupVal g : Nat) : Int))
          (chunk2 (s.data.drop 2))).map toString) = _
    rw [List.map_map]
    rfl
  · intro h0
    unfold convertIp
    rw [if_neg (by simp [h0])]

/-- Witness for C6: `0x7F000001` becomes `127.0.0.1`; `1.2.3.4` passes
through unchanged. -/
theorem c6_witness :
    (starts0x "0x7F000001" = true ∧ ("0x7F000001".data.drop 2).length % 2 = 0 ∧
      (∀ c ∈ "0x7F000001".data.drop 2, (hexDigitVal? c).isSome = true) ∧
      starts0x "1.2.3.4" = false) ∧
    convertIp "0x7F000001" = "127.0.0.1" ∧ convertIp "1.2.3.4" = "1.2.3.4" :=
  ⟨⟨by decide, by decide, by decide, by decide⟩,
    ((c6_ip_conversion "0x7F000001").1 (by decide) (by decide) (by decide)).trans
      (by decide),
    (c6_ip_conversion "1.2.3.4").2 (by decide)⟩

/-! ## Regex decomposition lemmas for C9 -/

theorem searchValues_some (cs : List Char) (cap : List Char)
    (h : searchValues cs = some cap) :
    ∃ pre suf, cs = pre ++ suf ∧ matchValuesAt suf = some cap := by
  induction cs with
  | nil => exact ⟨[], [], rfl, h⟩
  | cons c rest ih =>
    cases hm : matchValuesAt (c :: rest) with
    | some cap' =>
      rw [searchValues, hm] at h
      have h' : some cap' = some cap := h
      exact ⟨[], c :: rest, rfl, hm.trans h'⟩
    | none =>
      rw [searchValues, hm] at h
      have h' : searchValues rest = some cap := h
      obtain ⟨pre, suf, heq, hm2⟩ := ih h'
      exact ⟨c :: pre, suf, by rw [List.cons_append, ← heq], hm2⟩

theorem matchValuesAt_some (cs cap : List Char) (h : matchValuesAt cs = some cap) :
    ∃ v ws rest, cs = v ++ ws ++ '(' :: rest ∧
      v.map Char.toLower = "values".data ∧ wsOnly ws ∧
      findCapture rest = some cap := by
  unfold matchValuesAt at h
  by_cases h6 : (cs.take 6).map Char.toLower = "values".data
  · rw [if_pos h6] at h
    by_cases hh : ((cs.drop 6).dropWhile Char.isWhitespace).head? = some '('
    · rw [if_pos hh] at h
      refine ⟨cs.take 6, (cs.drop 6).takeWhile Char.isWhitespace,
        ((cs.drop 6).dropWhile Char.isWhitespace).tail, ?_, h6, ?_, h⟩
      · conv_lhs => rw [← List.take_append_drop 6 cs]
        rw [List.append_assoc]
        congr 1
        conv_lhs => rw [← List.takeWhile_append_dropWhile Char.isWhitespace (cs.drop 6)]
        congr 1
        cases hr : (cs.drop 6).dropWhile Char.isWhitespace with
        | nil => rw [hr] at hh; simp at hh
        | cons x xs =>
          rw [hr] at hh
          simp only [List.head?_cons, Option.some_inj] at hh
          rw [hh]
          rfl
      · intro c hc
        exact List.mem_takeWhile_imp hc
    · rw [if_neg hh] at h
      cases h
  · rw [if_neg h6] at h
    cases h

theorem findCapture_some (t cap : List Char) (h : findCapture t = some cap) :
    ∃ tl, t = cap ++ ')' :: tl ∧ tailOKP tl := by
  have htw : wsOnly (t.reverse.takeWhile Char.isWhitespace).reverse := by
    intro c hc
    exact List.mem_takeWhile_imp (List.mem_reverse.mp hc)
  have ht : t = (t.reverse.dropWhile Char.isWhitespace).reverse ++
      (t.reverse.takeWhile Char.isWhitespace).reverse := by
    conv_lhs => rw [← List.reverse_reverse t,
      ← List.takeWhile_append_dropWhile Char.isWhitespace t.reverse]
    rw [List.reverse_append]
  unfold findCapture at h
  cases hr1 : t.reverse.dropWhile Char.isWhitespace with
  | nil =>
    rw [hr1] at h
    simp [findCaptureTail] at h
  | cons x xs =>
    rw [hr1] at h ht
    by_cases hx : x = ';'
    · subst hx
      rw [show findCaptureTail (';' :: xs) = xs by simp [findCaptureTail]] at h
      cases hxs : xs with
      | nil =>
        rw [hxs] at h
        simp at h
      | cons y ys =>
        rw [hxs] at h ht
        by_cases hy : y = ')'
        · subst hy
          rw [if_pos (by simp)] at h
          simp only [List.tail_cons, Option.some_inj] at h
          refine ⟨';' :: (t.reverse.takeWhile Char.isWhitespace).reverse, ?_, ?_⟩
          · conv_lhs => rw [ht]
            rw [← h]
            simp
          · exact Or.inr ⟨(t.reverse.takeWhile Char.isWhitespace).reverse, rfl, htw⟩
        · rw [if_neg (by simp [hy])] at h
          cases h
    · rw [show findCaptureTail (x :: xs) = x :: xs by simp [findCaptureTail, hx]] at h
      by_cases hy : x = ')'
      · subst hy
        rw [if_pos (by simp)] at h
        simp only [List.tail_cons, Option.some_inj] at h
        refine ⟨(t.reverse.takeWhile Char.isWhitespace).reverse, ?_, Or.inl htw⟩
        conv_lhs => rw [ht]
        rw [← h]
        simp
      · rw [if_neg (by simp [hy])] at h
        cases h

/-- C9: the tokenizer is total (it is a function into `Option`), and
on every line without the `VALUES (...)` pattern — as described by
`specValuesPattern` — it returns no result. -/
theorem c9_no_pattern_no_result (line : String)
    (h : ¬ specValuesPattern line.data) : parse_values_line line = none := by
  unfold parse_values_line
  cases hs : searchValues line.data with
  | none => rfl
  | some cap =>
    exfalso
    apply h
    obtain ⟨pre, suf, heq, hm⟩ := searchValues_some _ _ hs
    obtain ⟨v, ws, rest, heq2, hv, hws, hfc⟩ := matchValuesAt_some _ _ hm
    obtain ⟨tl, heq3, htl⟩ := findCapture_some _ _ hfc
    refine ⟨pre, v, ws, cap, tl, ?_, hv, hws, htl⟩
    rw [heq, heq2, heq3]
    simp

/-- Witness for C9: the empty line has no `VALUES (...)` pattern and
tokenizes to nothing. -/
theorem c9_witness : parse_values_line "" = none :=
  c9_no_pattern_no_result "" (by
    rintro ⟨pre, v, ws, content, tl, heq, hv, -, -⟩
    have h1 := congrArg List.length heq
    have h2 := congrArg List.length hv
    simp only [List.length_map] at h2
    have h3 : ("values".data).length = 6 := rfl
    rw [h3] at h2
    have h4 : ("".data : List Char).length = 0 := rfl
    rw [h4] at h1
    simp only [List.length_append, List.length_cons] at h1
    omega)

/-! ## Main-loop counter lemmas for C10 -/

theorem mainStep_preserve (st st' : Nat × Nat) (l : String)
    (h : mainStep st l = some st') (he : st.1 = st.2) : st'.1 = st'.2 := by
  unfold mainStep at h
  split at h
  · cases h
    exact he
  · split at h
    · cases h
      exact he
    · split at h
      · cases h
        exact he
      · split at h
        · cases h
        · cases h
          exact he
        · cases h
          simp [he]

theorem mainLoop_preserve (lines : List String) :
    ∀ st st' : Nat × Nat, mainLoop st lines = some st' → st.1 = st.2 → st'.1 = st'.2 := by
  induction lines with
  | nil =>
    intro st st' h he
    cases h
    exact he
  | cons l rest ih =>
    intro st st' h he
    unfold mainLoop at h
    cases hm : mainStep st l with
    | none => rw [hm] at h; cases h
    | some st1 =>
      rw [hm] at h
      exact ih st1 st' h (mainStep_preserve st st1 l hm he)

/-- C10: every completed run of the main loop increments the
`processed` and `valid_users` counters together, so they are equal
after every iteration; in particular the final summary reports the
same number for both. -/
theorem c10_processed_eq_valid (lines : List String) (p v : Nat)
    (h : mainLoop (0, 0) lines = some (p, v)) : p = v :=
  mainLoop_preserve lines (0, 0) (p, v) h rfl

set_option maxRecDepth 8192 in
/-- Witness for C10: a full valid user line yields counters `(1, 1)`. -/
theorem c10_witness : (1 : Nat) = 1 :=
  c10_processed_eq_valid [c10Line] 1 1 (by decide)

end Mybb
